import Mathlib

/-!
Verification of the clustering and matching engine of the music-match backend.

The development shallowly embeds the Python sources:
  * backend/app/recommendations/engine.py  (find_nearest_cluster, rank_songs_in_cluster)
  * backend/app/clustering/cluster.py      (train_clusters, find_optimal_k,
                                            reduce_for_visualization,
                                            reduce_centroids_for_visualization)
  * backend/app/api/routes.py              (get_clusters_visualization)

Numbers are modelled exactly: feature values are rationals (the floats of the
source are idealised as exact arithmetic), and quantities that the source
computes with math.sqrt (Euclidean norms, cosine similarities) live in ℝ via
Real.sqrt.  Third-party library code (numpy, scikit-learn) is not part of the
repository; where its behaviour decides a claim it is modelled from its
documented contract and from the spec's algorithm description, as noted on
each definition.
-/

/-- FeatureVector: the canonical 7-dimensional feature representation.
FEATURE_KEYS / FEATURE_COLUMNS fix the dimension order
(bpm_normalized, energy, danceability, acousticness, valence,
instrumentalness, loudness); a vector is a function from those 7 slots. -/
abbrev Vec : Type := Fin 7 → ℚ

/-- FEATURE_COLUMNS from cluster.py (identical to FEATURE_KEYS of
quiz/scoring.py): the ordered list of the 7 feature column names. -/
def FEATURE_COLUMNS : List String :=
  [ "bpm_normalized", "energy", "danceability", "acousticness",
    "valence", "instrumentalness", "loudness" ]

/-- Box01 v states every component of v lies in [0,1] (the FeatureVector
invariant of the spec's data model). -/
def Box01 (v : Vec) : Prop := ∀ i, 0 ≤ v i ∧ v i ≤ 1

instance : DecidablePred Box01 := fun v => by unfold Box01; infer_instance

/-- Squared Euclidean distance between two feature vectors.  The source
computes np.linalg.norm(u - v); since Real.sqrt is strictly monotone on
nonnegatives, all comparisons the engine makes between distances coincide
with comparisons between these squared distances, which stay in ℚ and are
computable. -/
def sqDistV (u v : Vec) : ℚ := ∑ i, (u i - v i) ^ 2

/-- Euclidean distance as the source's np.linalg.norm computes it (the
square root of sqDistV), used to state the distance-minimality claims. -/
noncomputable def euclidDist (u v : Vec) : ℝ := Real.sqrt ((sqDistV u v : ℚ) : ℝ)

/-- Centroid dictionary as consumed by the recommendation engine: the
cluster_id entry plus the 7 feature entries (engine.py reads
centroid.get("cluster_id", 0) and centroid.get(key, 0.5); persisted
centroids always carry all keys, so the record is modelled as total). -/
structure Centroid where
  cluster_id : ℤ
  vec : Vec

instance : DecidableEq Centroid := by
  intro a b
  cases a
  cases b
  simp only [Centroid.mk.injEq]
  infer_instance

/-- Distance from a query vector to a centroid, squared (engine.py line 40). -/
def dC (q : Vec) (c : Centroid) : ℚ := sqDistV q c.vec

/-- Loop of find_nearest_cluster (engine.py lines 31-44): the running state
is (best_cluster_id, best_distance); best_distance starts at float('inf'),
modelled by ⊤ of WithTop ℚ, and is replaced exactly when the strict
comparison distance < best_distance holds.  Distances are tracked squared
(see sqDistV); the order is unchanged. -/
def fncGo (q : Vec) : List Centroid → ℤ → WithTop ℚ → ℤ × WithTop ℚ
  | [], bid, bd => (bid, bd)
  | c :: rest, bid, bd =>
      if (dC q c : WithTop ℚ) < bd then fncGo q rest c.cluster_id (dC q c)
      else fncGo q rest bid bd

/-- find_nearest_cluster (engine.py lines 15-46): starts from
best_cluster_id = 0 and best_distance = float('inf') (⊤) and scans the
centroid list; returns (cluster_id, squared distance), ⊤ encoding the
infinite float distance.  The float distance the source returns is the
square root of the second component. -/
def find_nearest_cluster (q : Vec) (cs : List Centroid) : ℤ × WithTop ℚ :=
  fncGo q cs 0 ⊤

/-- Second component of the loop: it computes the minimum of the initial
bound and all scanned (squared) distances. -/
theorem fncGo_snd (q : Vec) :
    ∀ (cs : List Centroid) (bid : ℤ) (bd : WithTop ℚ),
      (fncGo q cs bid bd).2 = (cs.map fun c => (dC q c : WithTop ℚ)).foldl min bd
  | [], _, _ => rfl
  | c :: rest, bid, bd => by
    by_cases h : (dC q c : WithTop ℚ) < bd
    · rw [fncGo, if_pos h, fncGo_snd q rest, List.map_cons, List.foldl_cons,
        min_eq_right h.le]
    · rw [fncGo, if_neg h, fncGo_snd q rest, List.map_cons, List.foldl_cons,
        min_eq_left (not_lt.mp h)]

/-- First component of the loop is unchanged when no scanned distance beats
the initial bound. -/
theorem fncGo_fst_stay (q : Vec) :
    ∀ (cs : List Centroid) (bid : ℤ) (bd : WithTop ℚ),
      (∀ c ∈ cs, bd ≤ (dC q c : WithTop ℚ)) → (fncGo q cs bid bd).1 = bid
  | [], _, _, _ => rfl
  | c :: rest, bid, bd, h => by
    simp only [fncGo]
    rw [if_neg (not_lt.mpr (h c (List.mem_cons_self c rest)))]
    exact fncGo_fst_stay q rest bid bd fun c' hc' => h c' (List.mem_cons_of_mem c hc')

/-- First component of the loop: if position i holds the first centroid of
minimal distance, and that distance beats the initial bound, the loop
returns its id. -/
theorem fncGo_fst_first_min (q : Vec) :
    ∀ (cs : List Centroid) (i : ℕ) (hi : i < cs.length) (bid : ℤ) (bd : WithTop ℚ),
      ((dC q cs[i] : WithTop ℚ) < bd) →
      (∀ j (hj : j < cs.length), dC q cs[i] ≤ dC q cs[j]) →
      (∀ j (hj : j < i), dC q cs[i] < dC q cs[j]) →
      (fncGo q cs bid bd).1 = cs[i].cluster_id
  | [], i, hi, _, _, _, _, _ => absurd hi (Nat.not_lt_zero i)
  | c :: rest, 0, hi, bid, bd, hbd, hmin, _ => by
    simp only [List.getElem_cons_zero] at hbd ⊢
    simp only [fncGo]
    rw [if_pos hbd]
    apply fncGo_fst_stay
    intro c' hc'
    obtain ⟨j, hj, rfl⟩ := List.mem_iff_getElem.mp hc'
    have := hmin (j + 1) (Nat.succ_lt_succ hj)
    simp only [List.getElem_cons_zero, List.getElem_cons_succ] at this
    exact_mod_cast this
  | c :: rest, i + 1, hi, bid, bd, hbd, hmin, hstrict => by
    have hi' : i < rest.length := Nat.lt_of_succ_lt_succ hi
    simp only [List.getElem_cons_succ] at hbd ⊢
    have hmin' : ∀ j (hj : j < rest.length), dC q rest[i] ≤ dC q rest[j] := by
      intro j hj
      have := hmin (j + 1) (Nat.succ_lt_succ hj)
      simpa only [List.getElem_cons_succ] using this
    have hstrict' : ∀ j (hj : j < i), dC q rest[i] < dC q rest[j] := by
      intro j hj
      have := hstrict (j + 1) (Nat.succ_lt_succ hj)
      simpa only [List.getElem_cons_succ] using this
    have hhead : dC q rest[i] < dC q c := by
      have := hstrict 0 (Nat.succ_pos i)
      simpa only [List.getElem_cons_succ, List.getElem_cons_zero] using this
    simp only [fncGo]
    by_cases h : (dC q c : WithTop ℚ) < bd
    · rw [if_pos h]
      exact fncGo_fst_first_min q rest i hi' c.cluster_id (dC q c)
        (by exact_mod_cast hhead) hmin' hstrict'
    · rw [if_neg h]
      exact fncGo_fst_first_min q rest i hi' bid bd hbd hmin' hstrict'

/-- Folding min over a list whose elements all dominate the accumulator
returns the accumulator. -/
theorem foldl_min_all_ge {α : Type} [LinearOrder α] :
    ∀ (l : List α) (a : α), (∀ d ∈ l, a ≤ d) → l.foldl min a = a
  | [], _, _ => rfl
  | d :: rest, a, h => by
    rw [List.foldl_cons, min_eq_left (h d (List.mem_cons_self _ _))]
    exact foldl_min_all_ge rest a fun x hx => h x (List.mem_cons_of_mem _ hx)

/-- Folding min over a list returns any element that is a lower bound of
the list and of the initial accumulator. -/
theorem foldl_min_eq_of_mem {α : Type} [LinearOrder α] :
    ∀ (l : List α) (a v : α), v ∈ l → (∀ d ∈ l, v ≤ d) → v ≤ a →
      l.foldl min a = v
  | [], _, _, hv, _, _ => absurd hv (List.not_mem_nil _)
  | d :: rest, a, v, hv, hlb, ha => by
    rw [List.foldl_cons]
    rcases List.mem_cons.mp hv with rfl | hv'
    · have : min a v = v := min_eq_right ha
      rw [this]
      exact foldl_min_all_ge rest v fun x hx => hlb x (List.mem_cons_of_mem _ hx)
    · exact foldl_min_eq_of_mem rest (min a d) v hv'
        (fun x hx => hlb x (List.mem_cons_of_mem _ hx))
        (le_min ha (hlb d (List.mem_cons_self _ _)))

/-- Existence of a first minimiser: every nonempty list has an index whose
image under f is minimal, with all strictly earlier images strictly bigger. -/
theorem exists_first_argmin {α β : Type} [LinearOrder β] (f : α → β) :
    ∀ (l : List α), l ≠ [] →
      ∃ i, ∃ hi : i < l.length,
        (∀ j (hj : j < l.length), f l[i] ≤ f l[j]) ∧
        (∀ j (hj : j < i), f l[i] < f l[j])
  | [], h => absurd rfl h
  | [a], _ => by
    refine ⟨0, Nat.zero_lt_one, ?_, ?_⟩
    · intro j hj
      have : j = 0 := Nat.lt_one_iff.mp hj
      subst this
      exact le_refl _
    · intro j hj
      exact absurd hj (Nat.not_lt_zero j)
  | a :: b :: t, _ => by
    obtain ⟨i, hi, hmin, hstrict⟩ :=
      exists_first_argmin f (b :: t) (List.cons_ne_nil b t)
    by_cases hcmp : f a ≤ f (b :: t)[i]
    · refine ⟨0, Nat.succ_pos _, ?_, ?_⟩
      · intro j hj
        match j with
        | 0 => exact le_refl _
        | j + 1 =>
          simp only [List.getElem_cons_zero, List.getElem_cons_succ]
          exact hcmp.trans (hmin j (Nat.lt_of_succ_lt_succ hj))
      · intro j hj
        exact absurd hj (Nat.not_lt_zero j)
    · refine ⟨i + 1, Nat.succ_lt_succ hi, ?_, ?_⟩
      · intro j hj
        simp only [List.getElem_cons_succ]
        match j with
        | 0 => exact (not_le.mp hcmp).le
        | j + 1 =>
          simp only [List.getElem_cons_succ]
          exact hmin j (Nat.lt_of_succ_lt_succ hj)
      · intro j hj
        simp only [List.getElem_cons_succ]
        match j with
        | 0 => simp only [List.getElem_cons_zero]; exact not_le.mp hcmp
        | j + 1 =>
          simp only [List.getElem_cons_succ]
          exact hstrict j (Nat.lt_of_succ_lt_succ hj)

/-- Squared-distance comparisons agree with Euclidean-distance comparisons:
sqDistV is nonnegative and Real.sqrt is monotone. -/
theorem sqDistV_nonneg (u v : Vec) : 0 ≤ sqDistV u v :=
  Finset.sum_nonneg fun _ _ => sq_nonneg _

theorem euclidDist_le_euclidDist {q : Vec} {a b : Vec}
    (h : sqDistV q a ≤ sqDistV q b) : euclidDist q a ≤ euclidDist q b :=
  Real.sqrt_le_sqrt (by exact_mod_cast h)

theorem euclidDist_lt_euclidDist {q : Vec} {a b : Vec}
    (h : sqDistV q a < sqDistV q b) : euclidDist q a < euclidDist q b :=
  Real.sqrt_lt_sqrt (by exact_mod_cast sqDistV_nonneg q a) (by exact_mod_cast h)

/-- Shared concrete feature vectors for witnesses. -/
def vZero : Vec := fun _ => 0

def vOne : Vec := fun _ => 1

def vHalf : Vec := fun _ => 1/2

/-- C3: for every query vector and nonempty centroid list,
find_nearest_cluster returns the id of a centroid of minimum Euclidean
distance to the query together with that minimum distance (the source
returns the float distance, the square root of the second component);
on exact ties the first centroid in list order wins; and permuting the
centroid list never changes the returned distance. -/
theorem find_nearest_cluster_spec (q : Vec) (cs : List Centroid) (hne : cs ≠ []) :
    ∃ i, ∃ hi : i < cs.length,
      (find_nearest_cluster q cs).1 = cs[i].cluster_id ∧
      (find_nearest_cluster q cs).2 = ((dC q cs[i] : ℚ) : WithTop ℚ) ∧
      Real.sqrt ((dC q cs[i] : ℚ) : ℝ) = euclidDist q cs[i].vec ∧
      (∀ j (hj : j < cs.length), euclidDist q cs[i].vec ≤ euclidDist q cs[j].vec) ∧
      (∀ j (hj : j < i), euclidDist q cs[i].vec < euclidDist q cs[j].vec) ∧
      (∀ cs2 : List Centroid, cs.Perm cs2 →
        (find_nearest_cluster q cs2).2 = (find_nearest_cluster q cs).2) := by
  obtain ⟨i, hi, hmin, hstrict⟩ := exists_first_argmin (dC q) cs hne
  refine ⟨i, hi, ?_, ?_, rfl, ?_, ?_, ?_⟩
  · exact fncGo_fst_first_min q cs i hi 0 ⊤ (WithTop.coe_lt_top _) hmin hstrict
  · rw [find_nearest_cluster, fncGo_snd]
    apply foldl_min_eq_of_mem
    · exact List.mem_map_of_mem _ (List.getElem_mem hi)
    · intro d hd
      obtain ⟨c, hc, rfl⟩ := List.mem_map.mp hd
      obtain ⟨j, hj, rfl⟩ := List.mem_iff_getElem.mp hc
      exact_mod_cast hmin j hj
    · exact le_top
  · intro j hj
    exact euclidDist_le_euclidDist (hmin j hj)
  · intro j hj
    exact euclidDist_lt_euclidDist (hstrict j hj)
  · intro cs2 hp
    rw [find_nearest_cluster, find_nearest_cluster, fncGo_snd, fncGo_snd]
    haveI : Std.Commutative (min : WithTop ℚ → WithTop ℚ → WithTop ℚ) := ⟨min_comm⟩
    exact ((hp.map fun c => (dC q c : WithTop ℚ)).foldl_eq ⊤).symm

/-- Witness for C3 at a concrete query and a concrete two-centroid list. -/
theorem find_nearest_cluster_spec_witness :
    ([⟨5, vOne⟩, ⟨7, vZero⟩] : List Centroid) ≠ [] ∧
    (∃ i, ∃ hi : i < ([⟨5, vOne⟩, ⟨7, vZero⟩] : List Centroid).length,
      (find_nearest_cluster vZero [⟨5, vOne⟩, ⟨7, vZero⟩]).1 =
        ([⟨5, vOne⟩, ⟨7, vZero⟩] : List Centroid)[i].cluster_id ∧
      (find_nearest_cluster vZero [⟨5, vOne⟩, ⟨7, vZero⟩]).2 =
        ((dC vZero ([⟨5, vOne⟩, ⟨7, vZero⟩] : List Centroid)[i] : ℚ) : WithTop ℚ) ∧
      Real.sqrt ((dC vZero ([⟨5, vOne⟩, ⟨7, vZero⟩] : List Centroid)[i] : ℚ) : ℝ) =
        euclidDist vZero ([⟨5, vOne⟩, ⟨7, vZero⟩] : List Centroid)[i].vec ∧
      (∀ j (hj : j < ([⟨5, vOne⟩, ⟨7, vZero⟩] : List Centroid).length),
        euclidDist vZero ([⟨5, vOne⟩, ⟨7, vZero⟩] : List Centroid)[i].vec ≤
        euclidDist vZero ([⟨5, vOne⟩, ⟨7, vZero⟩] : List Centroid)[j].vec) ∧
      (∀ j (hj : j < i),
        euclidDist vZero ([⟨5, vOne⟩, ⟨7, vZero⟩] : List Centroid)[i].vec <
        euclidDist vZero ([⟨5, vOne⟩, ⟨7, vZero⟩] : List Centroid)[j].vec) ∧
      (∀ cs2 : List Centroid, ([⟨5, vOne⟩, ⟨7, vZero⟩] : List Centroid).Perm cs2 →
        (find_nearest_cluster vZero cs2).2 =
        (find_nearest_cluster vZero [⟨5, vOne⟩, ⟨7, vZero⟩]).2)) :=
  ⟨List.cons_ne_nil _ _,
   find_nearest_cluster_spec vZero [⟨5, vOne⟩, ⟨7, vZero⟩] (List.cons_ne_nil _ _)⟩

/-- C10: on an empty centroid list, find_nearest_cluster raises nothing and
returns the pair (0, ⊤): cluster id 0 (the initial best_cluster_id, an id
that need not exist) and best_distance still float('inf'), which ⊤ models. -/
theorem find_nearest_cluster_empty (q : Vec) :
    find_nearest_cluster q [] = (0, ⊤) := rfl

/-- Song catalog entry (db/models.py): the fields the recommendation engine
reads when building the candidate array (engine.py lines 100-109), plus the
surrogate id that identifies the row. -/
structure Song where
  id : ℤ
  bpm : ℚ
  energy : ℚ
  danceability : ℚ
  acousticness : ℚ
  valence : ℚ
  instrumentalness : ℚ
  loudness : ℚ

instance : DecidableEq Song := by
  intro a b
  cases a
  cases b
  simp only [Song.mk.injEq]
  infer_instance

/-- Candidate feature array built from a song (engine.py lines 101-109):
bpm is normalised by 200, the remaining six features are taken as stored. -/
def songArr (s : Song) : Vec :=
  ![s.bpm / 200, s.energy, s.danceability, s.acousticness,
    s.valence, s.instrumentalness, s.loudness]

/-- Python list slicing l[:n] for an int n: the first n elements when
n ≥ 0, and all but the last |n| elements when n < 0. -/
def pyTake {α : Type} (n : ℤ) (l : List α) : List α :=
  if 0 ≤ n then l.take n.toNat else l.take (l.length - (-n).toNat)

/-- Stable descending insertion: a is placed after every element of
strictly greater key and before the first element of smaller-or-equal key.
Inserting the earlier element a this way in front of equal keys is exactly
what Python's stable sort with reverse=True does for it. -/
def insertDesc {α β : Type} [LinearOrder β] (key : α → β) (a : α) : List α → List α
  | [] => [a]
  | b :: l => if key b ≤ key a then a :: b :: l else b :: insertDesc key a l

/-- Stable descending sort by a key, processing the list front to back:
extensionally equal to Python's list.sort(key=..., reverse=True), which is
also a stable descending sort (stable sorts of a given keyed list agree). -/
def sortDesc {α β : Type} [LinearOrder β] (key : α → β) : List α → List α
  | [] => []
  | a :: l => insertDesc key a (sortDesc key l)

theorem insertDesc_perm {α β : Type} [LinearOrder β] (key : α → β) (a : α) :
    ∀ l : List α, (insertDesc key a l).Perm (a :: l)
  | [] => List.Perm.refl _
  | b :: l => by
    simp only [insertDesc]
    by_cases h : key b ≤ key a
    · rw [if_pos h]
    · rw [if_neg h]
      exact ((insertDesc_perm key a l).cons b).trans (List.Perm.swap a b l)

theorem sortDesc_perm {α β : Type} [LinearOrder β] (key : α → β) :
    ∀ l : List α, (sortDesc key l).Perm l
  | [] => List.Perm.refl _
  | a :: l =>
    (insertDesc_perm key a (sortDesc key l)).trans ((sortDesc_perm key l).cons a)

theorem insertDesc_pairwise {α β : Type} [LinearOrder β] (key : α → β) (a : α) :
    ∀ l : List α, l.Pairwise (fun x y => key y ≤ key x) →
      (insertDesc key a l).Pairwise (fun x y => key y ≤ key x)
  | [], _ => List.pairwise_singleton _ _
  | b :: l, h => by
    simp only [insertDesc]
    rcases List.pairwise_cons.mp h with ⟨hb, hl⟩
    by_cases hc : key b ≤ key a
    · rw [if_pos hc]
      refine List.pairwise_cons.mpr ⟨?_, h⟩
      intro x hx
      rcases List.mem_cons.mp hx with rfl | hx'
      · exact hc
      · exact (hb x hx').trans hc
    · rw [if_neg hc]
      refine List.pairwise_cons.mpr ⟨?_, insertDesc_pairwise key a l hl⟩
      intro x hx
      rcases List.mem_cons.mp ((List.Perm.mem_iff (insertDesc_perm key a l)).mp hx) with
        rfl | hx'
      · exact (not_le.mp hc).le
      · exact hb x hx'

theorem sortDesc_pairwise {α β : Type} [LinearOrder β] (key : α → β) :
    ∀ l : List α, (sortDesc key l).Pairwise (fun x y => key y ≤ key x)
  | [] => List.Pairwise.nil
  | a :: l => insertDesc_pairwise key a (sortDesc key l) (sortDesc_pairwise key l)

/-- Decomposition of a stable descending insertion: the list splits into
the maximal prefix of strictly greater keys, then the inserted element,
then the rest. -/
theorem insertDesc_decomp {α β : Type} [LinearOrder β] (key : α → β) (a : α) :
    ∀ l : List α, ∃ l₁ l₂, l = l₁ ++ l₂ ∧ insertDesc key a l = l₁ ++ a :: l₂ ∧
      ∀ y ∈ l₁, key a < key y
  | [] => ⟨[], [], rfl, rfl, fun y hy => absurd hy (List.not_mem_nil y)⟩
  | b :: l => by
    simp only [insertDesc]
    by_cases h : key b ≤ key a
    · refine ⟨[], b :: l, rfl, ?_, fun y hy => absurd hy (List.not_mem_nil y)⟩
      rw [if_pos h]
      rfl
    · obtain ⟨l₁, l₂, hsplit, hins, hgt⟩ := insertDesc_decomp key a l
      refine ⟨b :: l₁, l₂, by rw [List.cons_append, ← hsplit], ?_, ?_⟩
      · rw [if_neg h, List.cons_append, hins]
      · intro y hy
        rcases List.mem_cons.mp hy with rfl | hy'
        · exact not_le.mp h
        · exact hgt y hy'

/-- Inserting an element preserves sublists of the original list. -/
theorem sublist_insertDesc {α β : Type} [LinearOrder β] (key : α → β) (a : α)
    {s l : List α} (h : s.Sublist l) : s.Sublist (insertDesc key a l) := by
  obtain ⟨l₁, l₂, hsplit, hins, _⟩ := insertDesc_decomp key a l
  rw [hins]
  refine h.trans ?_
  rw [hsplit]
  exact List.Sublist.append_left (List.sublist_cons_self a l₂) l₁

/-- Stability of the descending sort: any two elements that appear in input
order with keys already in (weakly) descending order keep that relative
order in the sorted output.  In particular equal-key elements keep their
input order. -/
theorem sortDesc_stable {α β : Type} [LinearOrder β] (key : α → β) {a b : α} :
    ∀ l : List α, ([a, b].Sublist l) → key b ≤ key a →
      [a, b].Sublist (sortDesc key l)
  | [], hsub, _ => by cases hsub
  | c :: l, hsub, hk => by
    rw [sortDesc]
    cases hsub with
    | cons _ h =>
      exact sublist_insertDesc key c (sortDesc_stable key l h hk)
    | cons₂ _ h =>
      have hb : b ∈ sortDesc key l :=
        (sortDesc_perm key l).mem_iff.mpr (List.singleton_sublist.mp h)
      obtain ⟨l₁, l₂, hsplit, hins, hgt⟩ := insertDesc_decomp key a (sortDesc key l)
      rw [hins]
      rcases List.mem_append.mp (hsplit ▸ hb) with hb1 | hb2
      · exact absurd hk (not_le.mpr (hgt b hb1))
      · exact (List.Sublist.cons₂ a (List.singleton_sublist.mpr hb2)).trans
          (List.sublist_append_right l₁ (a :: l₂))

/-- Head of the stable descending sort: if position i holds the first
element of maximal key (all elements are ≤ it, all strictly earlier ones
are strictly below it), that element is the head of the sorted list. -/
theorem sortDesc_head_first_max {α β : Type} [LinearOrder β] (key : α → β) :
    ∀ (l : List α) (i : ℕ) (hi : i < l.length),
      (∀ j (hj : j < l.length), key l[j] ≤ key l[i]) →
      (∀ j (hj : j < i), key l[j] < key l[i]) →
      (sortDesc key l).head? = some l[i]
  | [], i, hi, _, _ => absurd hi (Nat.not_lt_zero i)
  | c :: t, 0, hi, hmax, _ => by
    simp only [List.getElem_cons_zero] at hmax ⊢
    rw [sortDesc]
    cases hs : sortDesc key t with
    | nil => rfl
    | cons b t' =>
      have hb : b ∈ t := (sortDesc_perm key t).subset (hs ▸ List.mem_cons_self b t')
      obtain ⟨j, hj, rfl⟩ := List.mem_iff_getElem.mp hb
      have := hmax (j + 1) (Nat.succ_lt_succ hj)
      simp only [List.getElem_cons_succ] at this
      rw [insertDesc, if_pos this]
      rfl
  | c :: t, i + 1, hi, hmax, hstrict => by
    have hi' : i < t.length := Nat.lt_of_succ_lt_succ hi
    simp only [List.getElem_cons_succ] at hmax hstrict ⊢
    have hmax' : ∀ j (hj : j < t.length), key t[j] ≤ key t[i] := by
      intro j hj
      have := hmax (j + 1) (Nat.succ_lt_succ hj)
      simpa only [List.getElem_cons_succ] using this
    have hstrict' : ∀ j (hj : j < i), key t[j] < key t[i] := by
      intro j hj
      have := hstrict (j + 1) (Nat.succ_lt_succ hj)
      simpa only [List.getElem_cons_succ] using this
    have hhead : key c < key t[i] := by
      have := hstrict 0 (Nat.succ_pos i)
      simpa only [List.getElem_cons_zero] using this
    have ih := sortDesc_head_first_max key t i hi' hmax' hstrict'
    rw [sortDesc]
    cases hs : sortDesc key t with
    | nil => rw [hs] at ih; cases ih
    | cons b t' =>
      rw [hs] at ih
      have hb : b = t[i] := by
        simpa only [List.head?_cons, Option.some.injEq] using ih
      subst hb
      rw [insertDesc, if_neg (not_le.mpr hhead)]
      rfl

/-- Dot product of two feature arrays (np.dot in engine.py line 112). -/
def dotQ (u v : Vec) : ℚ := ∑ i, u i * v i

/-- Sum of squares of a feature array; its square root is the Euclidean
norm np.linalg.norm computes. -/
def sumSq (v : Vec) : ℚ := ∑ i, v i ^ 2

/-- Euclidean norm of a feature array (np.linalg.norm in engine.py
line 113). -/
noncomputable def normR (v : Vec) : ℝ := Real.sqrt ((sumSq v : ℚ) : ℝ)

/-- Cosine similarity as engine.py lines 112-118 computes it: the dot
product over the product of norms when that product is positive, else 0. -/
noncomputable def similarity (u v : Vec) : ℝ :=
  if 0 < normR u * normR v then ((dotQ u v : ℚ) : ℝ) / (normR u * normR v) else 0

/-- Python's round(x, 3) (engine.py line 122): the nearest multiple of
1/1000.  Mathlib's round breaks exact half-thousandth ties upward while
Python breaks them to even; no claim depends on an exact tie, and on every
other value the two agree. -/
noncomputable def round3 (x : ℝ) : ℝ := ((round (1000 * x) : ℤ) : ℝ) / 1000

/-- Stored similarity_score of a candidate song for a query (engine.py
lines 112-123): cosine similarity of the query array and the song array,
rounded to three decimals. -/
noncomputable def scoreOf (q : Vec) (s : Song) : ℝ := round3 (similarity q (songArr s))

/-- rank_songs_in_cluster (engine.py lines 81-127): annotate every song
with its similarity score, sort descending by the stored score with
Python's stable sort, then slice to limit. -/
noncomputable def rank_songs_in_cluster (q : Vec) (songs : List Song) (limit : ℤ) :
    List (Song × ℝ) :=
  pyTake limit (sortDesc Prod.snd (songs.map fun s => (s, scoreOf q s)))

theorem sumSq_nonneg (v : Vec) : 0 ≤ sumSq v :=
  Finset.sum_nonneg fun _ _ => sq_nonneg _

theorem normR_nonneg (v : Vec) : 0 ≤ normR v := Real.sqrt_nonneg _

theorem normR_eq_zero_iff (v : Vec) : normR v = 0 ↔ sumSq v = 0 := by
  rw [normR, Real.sqrt_eq_zero (by exact_mod_cast sumSq_nonneg v)]
  exact_mod_cast Rat.cast_eq_zero

theorem dotQ_self_eq_sumSq (v : Vec) : dotQ v v = sumSq v :=
  Finset.sum_congr rfl fun i _ => (pow_two (v i)).symm

/-- Cosine similarity of a vector with itself is 1 when the vector is not
the zero vector. -/
theorem similarity_self (v : Vec) (hv : sumSq v ≠ 0) : similarity v v = 1 := by
  have hpos : (0 : ℝ) < ((sumSq v : ℚ) : ℝ) := by
    have := lt_of_le_of_ne (sumSq_nonneg v) (Ne.symm hv)
    exact_mod_cast this
  have hsqrt : normR v * normR v = ((sumSq v : ℚ) : ℝ) :=
    Real.mul_self_sqrt hpos.le
  rw [similarity, if_pos (hsqrt ▸ hpos), hsqrt, dotQ_self_eq_sumSq]
  exact div_self hpos.ne'

/-- Cauchy-Schwarz: cosine similarity never exceeds 1. -/
theorem similarity_le_one (u v : Vec) : similarity u v ≤ 1 := by
  rw [similarity]
  by_cases h : 0 < normR u * normR v
  · rw [if_pos h]
    rw [div_le_one h]
    have hcs : (dotQ u v) ^ 2 ≤ sumSq u * sumSq v := by
      rw [dotQ, sumSq, sumSq]
      exact Finset.sum_mul_sq_le_sq_mul_sq Finset.univ u v
    have h1 : ((dotQ u v : ℚ) : ℝ) ≤ |((dotQ u v : ℚ) : ℝ)| := le_abs_self _
    have h2 : |((dotQ u v : ℚ) : ℝ)| = Real.sqrt (((dotQ u v : ℚ) : ℝ) ^ 2) :=
      (Real.sqrt_sq_eq_abs _).symm
    have h3 : Real.sqrt (((dotQ u v : ℚ) : ℝ) ^ 2) ≤
        Real.sqrt (((sumSq u : ℚ) : ℝ) * ((sumSq v : ℚ) : ℝ)) := by
      apply Real.sqrt_le_sqrt
      exact_mod_cast hcs
    have h4 : Real.sqrt (((sumSq u : ℚ) : ℝ) * ((sumSq v : ℚ) : ℝ)) =
        normR u * normR v := by
      rw [normR, normR, Real.sqrt_mul (by exact_mod_cast sumSq_nonneg u)]
    calc ((dotQ u v : ℚ) : ℝ) ≤ |((dotQ u v : ℚ) : ℝ)| := h1
      _ = Real.sqrt (((dotQ u v : ℚ) : ℝ) ^ 2) := h2
      _ ≤ Real.sqrt (((sumSq u : ℚ) : ℝ) * ((sumSq v : ℚ) : ℝ)) := h3
      _ = normR u * normR v := h4
  · rw [if_neg h]
    exact zero_le_one

theorem round3_mono {x y : ℝ} (h : x ≤ y) : round3 x ≤ round3 y := by
  rw [round3, round3]
  have : round (1000 * x) ≤ round (1000 * y) := by
    rw [round_eq, round_eq]
    exact Int.floor_mono (by linarith)
  have hr : ((round (1000 * x) : ℤ) : ℝ) ≤ ((round (1000 * y) : ℤ) : ℝ) := by
    exact_mod_cast this
  linarith

theorem round3_one : round3 1 = 1 := by
  rw [round3, mul_one]
  have : ((1000 : ℤ) : ℝ) = (1000 : ℝ) := by norm_num
  rw [← this, round_intCast]
  norm_num

theorem round3_zero : round3 0 = 0 := by
  rw [round3, mul_zero, round_zero]
  norm_num

/-- Every stored score is at most 1 (Cauchy-Schwarz plus monotone
rounding). -/
theorem scoreOf_le_one (q : Vec) (s : Song) : scoreOf q s ≤ 1 := by
  rw [scoreOf, ← round3_one]
  exact round3_mono (similarity_le_one q (songArr s))

/-- A candidate identical to a query of nonzero magnitude scores exactly 1. -/
theorem scoreOf_self (q : Vec) (s : Song) (hq : sumSq q ≠ 0)
    (hs : songArr s = q) : scoreOf q s = 1 := by
  rw [scoreOf, hs, similarity_self q hq, round3_one]

/-- Everything scores 0 against a zero-magnitude query. -/
theorem scoreOf_zero_query (q : Vec) (s : Song) (hq : sumSq q = 0) :
    scoreOf q s = 0 := by
  have hn : normR q = 0 := (normR_eq_zero_iff q).mpr hq
  rw [scoreOf, similarity, hn, zero_mul, if_neg (lt_irrefl 0), round3_zero]

/-- Taking a Python slice l[:n] with n ≥ 1 keeps the head of the list. -/
theorem pyTake_head {α : Type} (n : ℤ) (hn : 1 ≤ n) (l : List α) :
    (pyTake n l).head? = l.head? := by
  rw [pyTake, if_pos (le_trans zero_le_one hn)]
  cases l with
  | nil => simp
  | cons x t =>
    have hsucc : n.toNat = (n.toNat - 1) + 1 := by omega
    rw [hsucc, List.take_succ_cons]
    rfl

/-- C4 (amended): for every query vector, candidate list and limit ≥ 0,
rank_songs_in_cluster is the stable descending sort of the scored
candidates truncated to the first limit entries: weakly descending in the
stored score, at most limit entries long, and any two candidates whose
scores are already in (weakly) descending input order, in particular any
two with equal scores, keep their relative input order in the sorted
list.  (For limit < 0, Python slicing drops entries from the end instead;
see the counterexample.) -/
theorem rank_songs_sorted_stable (q : Vec) (songs : List Song) (limit : ℤ)
    (hlim : 0 ≤ limit) :
    (rank_songs_in_cluster q songs limit).Pairwise (fun a b => b.2 ≤ a.2) ∧
    ((rank_songs_in_cluster q songs limit).length : ℤ) ≤ limit ∧
    rank_songs_in_cluster q songs limit =
      (sortDesc Prod.snd (songs.map fun s => (s, scoreOf q s))).take limit.toNat ∧
    (∀ a b : Song × ℝ, [a, b].Sublist (songs.map fun s => (s, scoreOf q s)) →
      a.2 = b.2 →
      [a, b].Sublist (sortDesc Prod.snd (songs.map fun s => (s, scoreOf q s)))) := by
  have heq : rank_songs_in_cluster q songs limit =
      (sortDesc Prod.snd (songs.map fun s => (s, scoreOf q s))).take limit.toNat := by
    rw [rank_songs_in_cluster, pyTake, if_pos hlim]
  refine ⟨?_, ?_, heq, ?_⟩
  · rw [heq]
    exact List.Pairwise.sublist (List.take_sublist _ _) (sortDesc_pairwise Prod.snd _)
  · rw [heq]
    calc (((sortDesc Prod.snd (songs.map fun s => (s, scoreOf q s))).take
        limit.toNat).length : ℤ)
        ≤ (limit.toNat : ℤ) := by exact_mod_cast List.length_take_le _ _
      _ = limit := Int.toNat_of_nonneg hlim
  · intro a b hsub hab
    exact sortDesc_stable Prod.snd _ hsub (le_of_eq hab.symm)

/-- Concrete songs used in counterexamples and witnesses. -/
def sngA : Song := ⟨1, 100, 1/2, 1/2, 1/2, 1/2, 1/2, 1/2⟩

def sngB : Song := ⟨2, 0, 0, 0, 0, 0, 0, 0⟩

def sngQ : Song := ⟨3, 200, 1, 1, 1, 1, 1, 1⟩

/-- Witness for C4 at a concrete query, song list and limit. -/
theorem rank_songs_sorted_stable_witness :
    (0 : ℤ) ≤ 20 ∧
    ((rank_songs_in_cluster vHalf [sngA, sngB] 20).Pairwise (fun a b => b.2 ≤ a.2) ∧
    ((rank_songs_in_cluster vHalf [sngA, sngB] 20).length : ℤ) ≤ 20 ∧
    rank_songs_in_cluster vHalf [sngA, sngB] 20 =
      (sortDesc Prod.snd ([sngA, sngB].map fun s => (s, scoreOf vHalf s))).take
        (20 : ℤ).toNat ∧
    (∀ a b : Song × ℝ, [a, b].Sublist ([sngA, sngB].map fun s => (s, scoreOf vHalf s)) →
      a.2 = b.2 →
      [a, b].Sublist (sortDesc Prod.snd ([sngA, sngB].map fun s => (s, scoreOf vHalf s))))) :=
  ⟨by norm_num, rank_songs_sorted_stable vHalf [sngA, sngB] 20 (by norm_num)⟩

/-- Counterexample for C4 as frozen: at the reachable negative limit -1
(the route /recommendations/:id forwards any int limit), Python slicing
returns all but the last entry, so the output has 1 entry, which is not
"at most limit" entries. -/
theorem rank_songs_negative_limit_counterexample :
    ((rank_songs_in_cluster vHalf [sngA, sngB] (-1)).length : ℤ) = 1 ∧
    ¬ ((rank_songs_in_cluster vHalf [sngA, sngB] (-1)).length : ℤ) ≤ -1 := by
  have hlen : (sortDesc Prod.snd ([sngA, sngB].map fun s => (s, scoreOf vHalf s))).length
      = 2 := by
    rw [(sortDesc_perm Prod.snd _).length_eq]
    simp
  have h1 : ((rank_songs_in_cluster vHalf [sngA, sngB] (-1)).length : ℤ) = 1 := by
    rw [rank_songs_in_cluster, pyTake, if_neg (by norm_num)]
    rw [List.length_take, hlen]
    norm_num
  exact ⟨h1, by rw [h1]; norm_num⟩

/-- C8: the score the engine assigns a candidate is cosine similarity
dot(query, candidate) / (norm(query) * norm(candidate)); it is defined to
be 0 whenever either vector has zero magnitude (the source's guard
norm_product > 0 is equivalent, since norms are nonnegative), so the
scoring is total and no division by zero is ever attempted; the stored
similarity_score field is this value rounded to three decimals. -/
theorem similarity_spec (q : Vec) (s : Song) :
    (normR q = 0 ∨ normR (songArr s) = 0 → similarity q (songArr s) = 0) ∧
    (normR q ≠ 0 → normR (songArr s) ≠ 0 →
      similarity q (songArr s) =
        ((dotQ q (songArr s) : ℚ) : ℝ) / (normR q * normR (songArr s))) ∧
    scoreOf q s = round3 (similarity q (songArr s)) := by
  refine ⟨?_, ?_, rfl⟩
  · intro h
    have h0 : normR q * normR (songArr s) = 0 := by
      rcases h with h | h
      · rw [h, zero_mul]
      · rw [h, mul_zero]
    rw [similarity, h0, if_neg (lt_irrefl 0)]
  · intro h1 h2
    have hp : 0 < normR q * normR (songArr s) :=
      mul_pos (lt_of_le_of_ne (normR_nonneg q) (Ne.symm h1))
              (lt_of_le_of_ne (normR_nonneg _) (Ne.symm h2))
    rw [similarity, if_pos hp]

/-- Counterexample for C9 as frozen: against the zero query vector the
candidate sngB has a feature array identical to the query, yet every score
is 0 (zero-magnitude guard), so the stable sort leaves the unrelated first
candidate sngA in front: the identical candidate is not placed first and
its score is 0, not 1.0. -/
theorem rank_identical_not_first_counterexample :
    songArr sngB = vZero ∧ sngA ≠ sngB ∧
    (rank_songs_in_cluster vZero [sngA, sngB] 20).head? =
      some (sngA, scoreOf vZero sngA) ∧
    scoreOf vZero sngA = 0 ∧ scoreOf vZero sngB = 0 := by
  have hz : sumSq vZero = 0 := by norm_num [sumSq, vZero]
  have hA := scoreOf_zero_query vZero sngA hz
  have hB := scoreOf_zero_query vZero sngB hz
  refine ⟨?_, ?_, ?_, hA, hB⟩
  · funext i
    fin_cases i <;> norm_num [songArr, sngB, vZero]
  · intro h
    have : sngA.id = sngB.id := congrArg Song.id h
    norm_num [sngA, sngB] at this
  · rw [rank_songs_in_cluster, pyTake_head 20 (by norm_num)]
    have hmap : ([sngA, sngB].map fun s => (s, scoreOf vZero s)) =
        [(sngA, scoreOf vZero sngA), (sngB, scoreOf vZero sngB)] := by simp
    rw [hmap]
    have hhead := sortDesc_head_first_max Prod.snd
        [(sngA, scoreOf vZero sngA), (sngB, scoreOf vZero sngB)] 0 (by norm_num)
        (by
          intro j hj
          simp only [List.length_cons, List.length_nil] at hj
          interval_cases j
          · exact le_refl _
          · simp only [List.getElem_cons_zero, List.getElem_cons_succ]
            rw [hA, hB])
        (fun j hj => absurd hj (Nat.not_lt_zero j))
    simpa using hhead

/-- C9 (amended): if the query vector has nonzero magnitude, the limit is
at least 1, and some position i of the candidate list holds a candidate
whose feature array is identical to the query while every earlier
candidate scores strictly below 1, then rank_songs_in_cluster places that
candidate first with a stored score of exactly 1.0.  (The frozen claim
fails for a zero-magnitude query, for limit < 1, and when an earlier
candidate also rounds to score 1; see the counterexample.) -/
theorem rank_identical_first (q : Vec) (songs : List Song) (limit : ℤ)
    (hq : sumSq q ≠ 0) (hlim : 1 ≤ limit) (i : ℕ) (hi : i < songs.length)
    (hident : songArr songs[i] = q)
    (hbefore : ∀ j (hj : j < i), scoreOf q songs[j] < 1) :
    (rank_songs_in_cluster q songs limit).head? = some (songs[i], 1) ∧
    scoreOf q songs[i] = 1 := by
  have hsc : scoreOf q songs[i] = 1 := scoreOf_self q _ hq hident
  have hleni : i < (songs.map fun s => (s, scoreOf q s)).length := by
    rw [List.length_map]
    exact hi
  have hhead := sortDesc_head_first_max Prod.snd
      (songs.map fun s => (s, scoreOf q s)) i hleni
      (by
        intro j hj
        have hj' : j < songs.length := by
          rw [List.length_map] at hj
          exact hj
        simp only [List.getElem_map]
        rw [hsc]
        exact scoreOf_le_one q _)
      (by
        intro j hj
        have hj' : j < songs.length := (hj.trans hleni).trans_eq (List.length_map _ _)
        simp only [List.getElem_map]
        rw [hsc]
        exact hbefore j hj)
  refine ⟨?_, hsc⟩
  rw [rank_songs_in_cluster, pyTake_head limit hlim, hhead]
  simp only [List.getElem_map]
  rw [hsc]

/-- Witness for the amended C9 at a concrete nonzero query and a candidate
list holding one candidate identical to it. -/
theorem rank_identical_first_witness :
    sumSq vOne ≠ 0 ∧ (1 : ℤ) ≤ 20 ∧ songArr sngQ = vOne ∧
    (rank_songs_in_cluster vOne [sngQ] 20).head? = some (sngQ, 1) ∧
    scoreOf vOne sngQ = 1 := by
  have h1 : sumSq vOne ≠ 0 := by norm_num [sumSq, vOne, Fin.sum_univ_seven]
  have h2 : songArr sngQ = vOne := by
    funext i
    fin_cases i <;> norm_num [songArr, sngQ, vOne]
  have h := rank_identical_first vOne [sngQ] 20 h1 (by norm_num) 0 (by norm_num)
    (by simpa using h2) (fun j hj => absurd hj (Nat.not_lt_zero j))
  refine ⟨h1, by norm_num, h2, ?_, ?_⟩
  · simpa using h.1
  · simpa using h.2

/-- PyError models the Python exceptions reachable from the clustering
module: scikit-learn input validation raises ValueError.  The repository
defines no error classes of its own (in particular no EmptyInputError and
no InvalidClusterCountError exist anywhere in the sources). -/
inductive PyError where
  | valueError

instance : DecidableEq PyError := fun a b => by
  cases a
  cases b
  exact isTrue rfl

/-- Loop assigning a vector to the first nearest centroid by index
(squared distances, first wins ties), the assignment rule of k-means
prediction. -/
def assignGo (x : Vec) : List Vec → ℕ → ℕ → WithTop ℚ → ℕ
  | [], _, bi, _ => bi
  | c :: cs, i, bi, bd =>
      if (sqDistV x c : WithTop ℚ) < bd then assignGo x cs (i + 1) i (sqDistV x c)
      else assignGo x cs (i + 1) bi bd

/-- Index of the nearest centroid to x (k-means label of x). -/
def assignIdx (cents : List Vec) (x : Vec) : ℕ := assignGo x cents 0 0 ⊤

/-- Vectors of X whose label equals i. -/
def membersOf (X : List Vec) (ls : List ℕ) (i : ℕ) : List Vec :=
  ((X.zip ls).filter fun p => p.2 == i).map Prod.fst

/-- Componentwise mean of a list of vectors. -/
def meanV (vs : List Vec) : Vec := fun d => (vs.map fun v => v d).sum / (vs.length : ℚ)

/-- Modelled from the spec: one Lloyd relocation round (spec 4.1 steps
b-c) — assign every vector to its nearest centroid, then move each
centroid to the mean of its assigned vectors (a centroid with no assigned
vector keeps its position).  The k-means implementation lives in
scikit-learn, not in this repository. -/
def stepKM (X : List Vec) (cents : List Vec) : List Vec :=
  let ls := X.map (assignIdx cents)
  cents.enum.map fun p =>
    let ms := membersOf X ls p.1
    if ms.isEmpty then p.2 else meanV ms

/-- Modelled from the spec: repeat relocation rounds until the centroids
stop changing or the iteration budget runs out (spec 4.1 step d;
scikit-learn's max_iter default is 300). -/
def lloydIter (X : List Vec) : ℕ → List Vec → List Vec
  | 0, cents => cents
  | n + 1, cents =>
      let cents2 := stepKM X cents
      if cents2 = cents then cents else lloydIter X n cents2

/-- Modelled from the spec: seeded deterministic k-means — the seed picks
the initial centers (standing in for seeded k-means++, which lives in
scikit-learn, not in this repository), then Lloyd rounds run to a fixed
point.  Identical seed and input give identical output. -/
def kmeansSeeded (seed : ℕ) (X : List Vec) (k : ℕ) : List Vec :=
  lloydIter X 300 ((X.rotate seed).take k)

/-- random_state as train_clusters passes it to KMeans (cluster.py
line 34): the fixed seed 42, not fresh entropy. -/
def kmRandomState : Option ℕ := some 42

/-- Seed actually used by a training run: the pinned random_state when one
is set, otherwise the ambient process entropy. -/
def effectiveSeed (ambient : ℕ) : ℕ :=
  match kmRandomState with
  | some s => s
  | none => ambient

/-- train_clusters (cluster.py lines 21-38) as one run in a process whose
ambient RNG state is `ambient`: fit KMeans on the 7 feature columns and
score the labelling with silhouette_score.  The validation mirrors
scikit-learn's documented contract (not repository code): fitting needs
1 ≤ n_clusters ≤ n_samples and at least one sample, silhouette_score
needs 2 ≤ n_labels ≤ n_samples - 1 (k-means yields exactly k labels);
each violation raises ValueError.  The silhouette value itself is the
abstract parameter sil, applied to the samples and their labels. -/
def train_clusters_run (ambient : ℕ) (sil : List Vec → List ℕ → ℚ)
    (X : List Vec) (k : ℕ) : Except PyError (List Vec × ℚ) :=
  if X.length = 0 then .error .valueError
  else if ¬ (1 ≤ k ∧ k ≤ X.length) then .error .valueError
  else if ¬ (2 ≤ k ∧ k + 1 ≤ X.length) then .error .valueError
  else
    let cents := kmeansSeeded (effectiveSeed ambient) X k
    .ok (cents, sil X (X.map (assignIdx cents)))

/-- train_clusters as called by the application. -/
def train_clusters (sil : List Vec → List ℕ → ℚ) (X : List Vec) (k : ℕ) :
    Except PyError (List Vec × ℚ) :=
  train_clusters_run 0 sil X k

/-- Python range(start, stop) with the default step 1. -/
structure PyRange where
  start : ℕ
  stop : ℕ

/-- Elements of a Python range: start, start+1, ..., stop-1. -/
def PyRange.elems (r : PyRange) : List ℕ := List.range' r.start (r.stop - r.start)

/-- Loop of find_optimal_k (cluster.py lines 54-67): scan the candidate
list carrying (best_k, best_score), best_score starting at -1; break as
soon as a candidate reaches n = len(X); otherwise fit KMeans and compute
the silhouette score (library validation as in train_clusters_run, with
sil k the abstract silhouette value of the k-label clustering), keeping
the candidate exactly when score > best_score. -/
def fokGo (sil : ℕ → ℚ) (n : ℕ) : List ℕ → ℕ → ℚ → Except PyError ℕ
  | [], bk, _ => .ok bk
  | k :: ks, bk, bs =>
      if n ≤ k then .ok bk
      else if ¬ (1 ≤ k ∧ k ≤ n) then .error .valueError
      else if ¬ (2 ≤ k ∧ k + 1 ≤ n) then .error .valueError
      else if bs < sil k then fokGo sil n ks k (sil k) else fokGo sil n ks bk bs

/-- find_optimal_k (cluster.py lines 41-69): best_k starts at
k_range.start and the scan runs over the range elements. -/
def find_optimal_k (sil : ℕ → ℚ) (X : List Vec) (kr : PyRange) : Except PyError ℕ :=
  fokGo sil X.length kr.elems kr.start (-1)

/-- Members of a label class come from the sample list. -/
theorem mem_of_mem_membersOf {X : List Vec} {ls : List ℕ} {i : ℕ} {v : Vec}
    (hv : v ∈ membersOf X ls i) : v ∈ X := by
  obtain ⟨p, hp, rfl⟩ := List.mem_map.mp hv
  obtain ⟨a, b, rfl⟩ : ∃ a b, p = (a, b) := ⟨p.1, p.2, rfl⟩
  exact (List.of_mem_zip (List.mem_of_mem_filter hp)).1

/-- The mean of a nonempty family of vectors inside the unit box stays in
the unit box. -/
theorem meanV_box (vs : List Vec) (hne : vs ≠ []) (h : ∀ v ∈ vs, Box01 v) :
    Box01 (meanV vs) := by
  intro d
  simp only [meanV]
  have hlen : (0 : ℚ) < (vs.length : ℚ) := by
    have := List.length_pos.mpr hne
    exact_mod_cast this
  constructor
  · apply div_nonneg _ hlen.le
    apply List.sum_nonneg
    intro x hx
    obtain ⟨v, hv, rfl⟩ := List.mem_map.mp hx
    exact (h v hv d).1
  · rw [div_le_one hlen]
    have hb : ∀ x ∈ vs.map fun v => v d, x ≤ (1 : ℚ) := by
      intro x hx
      obtain ⟨v, hv, rfl⟩ := List.mem_map.mp hx
      exact (h v hv d).2
    calc (vs.map fun v => v d).sum
        ≤ (vs.map fun v => v d).length • (1 : ℚ) := List.sum_le_card_nsmul _ 1 hb
      _ = (vs.length : ℚ) := by rw [List.length_map, nsmul_eq_mul, mul_one]

/-- A relocation round keeps the number of centroids. -/
theorem stepKM_length (X cents : List Vec) : (stepKM X cents).length = cents.length := by
  rw [stepKM, List.length_map, List.enum_length]

/-- A relocation round keeps centroids inside the unit box when the
samples are in the unit box. -/
theorem stepKM_box (X cents : List Vec) (hX : ∀ v ∈ X, Box01 v)
    (hc : ∀ c ∈ cents, Box01 c) : ∀ c2 ∈ stepKM X cents, Box01 c2 := by
  intro c2 hc2
  rw [stepKM] at hc2
  obtain ⟨p, hp, rfl⟩ := List.mem_map.mp hc2
  by_cases hms : (membersOf X (X.map (assignIdx cents)) p.1).isEmpty
  · rw [if_pos hms]
    refine hc p.2 ?_
    exact List.getElem?_mem (List.mem_enum_iff_getElem?.mp hp)
  · rw [if_neg hms]
    apply meanV_box
    · intro hnil
      exact hms (List.isEmpty_iff.mpr hnil)
    · intro v hv
      exact hX v (mem_of_mem_membersOf hv)

/-- Lloyd iteration keeps the number of centroids. -/
theorem lloydIter_length (X : List Vec) :
    ∀ (n : ℕ) (cents : List Vec), (lloydIter X n cents).length = cents.length
  | 0, _ => rfl
  | n + 1, cents => by
    rw [lloydIter]
    by_cases h : stepKM X cents = cents
    · rw [if_pos h]
    · rw [if_neg h, lloydIter_length X n, stepKM_length]

/-- Lloyd iteration keeps centroids inside the unit box. -/
theorem lloydIter_box (X : List Vec) (hX : ∀ v ∈ X, Box01 v) :
    ∀ (n : ℕ) (cents : List Vec), (∀ c ∈ cents, Box01 c) →
      ∀ c ∈ lloydIter X n cents, Box01 c
  | 0, _, hc => hc
  | n + 1, cents, hc => by
    rw [lloydIter]
    by_cases h : stepKM X cents = cents
    · rw [if_pos h]
      exact hc
    · rw [if_neg h]
      exact lloydIter_box X hX n (stepKM X cents) (stepKM_box X cents hX hc)

/-- Seeded k-means returns exactly k centroids when k ≤ N. -/
theorem kmeansSeeded_length (seed : ℕ) (X : List Vec) (k : ℕ) (hk : k ≤ X.length) :
    (kmeansSeeded seed X k).length = k := by
  rw [kmeansSeeded, lloydIter_length, List.length_take, List.length_rotate]
  exact min_eq_left hk

/-- Seeded k-means keeps centroids inside the unit box. -/
theorem kmeansSeeded_box (seed : ℕ) (X : List Vec) (k : ℕ)
    (hX : ∀ v ∈ X, Box01 v) : ∀ c ∈ kmeansSeeded seed X k, Box01 c := by
  apply lloydIter_box X hX
  intro c hc
  exact hX c ((List.rotate_perm X seed).subset ((List.take_sublist _ _).subset hc))

/-- C5 (amended): for every input inside the unit box and every k with
2 ≤ k ≤ N-1, training succeeds and returns exactly k centroids, each a
7-dimension vector (FEATURE_COLUMNS fixes 7 columns; Vec is indexed by
them) with every component in [0,1].  (The frozen claim's range N ≥ k ≥ 1
fails at k = 1 and k = N, where silhouette_score raises; see the
counterexample.) -/
theorem train_clusters_valid_k (sil : List Vec → List ℕ → ℚ) (X : List Vec) (k : ℕ)
    (hbox : ∀ v ∈ X, Box01 v) (h2 : 2 ≤ k) (hk : k + 1 ≤ X.length) :
    ∃ cents score, train_clusters sil X k = .ok (cents, score) ∧
      cents.length = k ∧ (∀ c ∈ cents, Box01 c) ∧ FEATURE_COLUMNS.length = 7 := by
  have hlen0 : ¬ X.length = 0 := by omega
  have hcond1 : 1 ≤ k ∧ k ≤ X.length := ⟨by omega, by omega⟩
  have hcond2 : 2 ≤ k ∧ k + 1 ≤ X.length := ⟨h2, hk⟩
  refine ⟨kmeansSeeded (effectiveSeed 0) X k,
    sil X (X.map (assignIdx (kmeansSeeded (effectiveSeed 0) X k))), ?_, ?_, ?_, rfl⟩
  · rw [train_clusters, train_clusters_run, if_neg hlen0,
      if_neg (not_not_intro hcond1), if_neg (not_not_intro hcond2)]
  · exact kmeansSeeded_length _ X k (by omega)
  · exact kmeansSeeded_box _ X k hbox

/-- Witness for the amended C5 at three concrete vectors and k = 2. -/
theorem train_clusters_valid_k_witness :
    (∀ v ∈ ([vZero, vHalf, vOne] : List Vec), Box01 v) ∧
    (∃ cents score,
      train_clusters (fun _ _ => 0) [vZero, vHalf, vOne] 2 = .ok (cents, score) ∧
      cents.length = 2 ∧ (∀ c ∈ cents, Box01 c) ∧ FEATURE_COLUMNS.length = 7) := by
  have hbox : ∀ v ∈ ([vZero, vHalf, vOne] : List Vec), Box01 v := by
    intro v hv
    rcases List.mem_cons.mp hv with rfl | hv
    · intro i
      norm_num [vZero]
    rcases List.mem_cons.mp hv with rfl | hv
    · intro i
      norm_num [vHalf]
    rcases List.mem_cons.mp hv with rfl | hv
    · intro i
      norm_num [vOne]
    cases hv
  exact ⟨hbox,
    train_clusters_valid_k (fun _ _ => 0) [vZero, vHalf, vOne] 2 hbox
      (by norm_num) (by simp)⟩

/-- Counterexample for C5 as frozen: with two unit-box vectors and k = 1
(inside the claimed valid range N ≥ k ≥ 1) training raises ValueError —
silhouette_score is undefined for a single label. -/
theorem train_clusters_k_one_counterexample :
    Box01 vZero ∧ Box01 vOne ∧
    train_clusters (fun _ _ => 0) [vZero, vOne] 1 = .error .valueError := by
  refine ⟨?_, ?_, rfl⟩
  · intro i
    norm_num [vZero]
  · intro i
    norm_num [vOne]

/-- C6: training is deterministic — its result does not depend on the
ambient process randomness, because the source pins random_state to 42
(kmRandomState), so two runs over identical input, here the two sides of
the equation with arbitrary distinct entropy, produce identical centroids
and identical silhouette score. -/
theorem train_clusters_run_deterministic (a1 a2 : ℕ) (sil : List Vec → List ℕ → ℚ)
    (X : List Vec) (k : ℕ) :
    train_clusters_run a1 sil X k = train_clusters_run a2 sil X k := rfl

/-- C1 (amended): fixed-k training fails — with the library's ValueError,
the only error class in the pipeline (no EmptyInputError or
InvalidClusterCountError exists in the repository) — when N = 0 and
whenever k ≥ N; but model selection does NOT fail when every candidate
k in the range is ≥ N: it silently returns the start of the range. -/
theorem train_validation_amended :
    (∀ (sil : List Vec → List ℕ → ℚ) (k : ℕ),
      train_clusters sil [] k = .error .valueError) ∧
    (∀ (sil : List Vec → List ℕ → ℚ) (X : List Vec) (k : ℕ), X.length ≤ k →
      train_clusters sil X k = .error .valueError) ∧
    (∀ (sil : ℕ → ℚ) (X : List Vec) (kr : PyRange),
      (∀ c ∈ kr.elems, X.length ≤ c) → find_optimal_k sil X kr = .ok kr.start) := by
  refine ⟨fun sil k => rfl, ?_, ?_⟩
  · intro sil X k hk
    rw [train_clusters, train_clusters_run]
    by_cases h0 : X.length = 0
    · rw [if_pos h0]
    · rw [if_neg h0]
      by_cases h1 : 1 ≤ k ∧ k ≤ X.length
      · rw [if_neg (not_not_intro h1), if_pos (by omega : ¬ (2 ≤ k ∧ k + 1 ≤ X.length))]
      · rw [if_pos h1]
  · intro sil X kr hall
    rw [find_optimal_k]
    cases helems : kr.elems with
    | nil => rfl
    | cons k ks =>
      have hk : X.length ≤ k := hall k (helems ▸ List.mem_cons_self k ks)
      rw [fokGo, if_pos hk]

/-- Witness for the amended C1: the three behaviours at concrete inputs. -/
theorem train_validation_amended_witness :
    train_clusters (fun _ _ => 0) [] 3 = .error .valueError ∧
    train_clusters (fun _ _ => 0) [vZero, vOne] 5 = .error .valueError ∧
    find_optimal_k (fun _ => 0) [vHalf] ⟨4, 15⟩ = .ok 4 := by
  refine ⟨train_validation_amended.1 _ 3,
    train_validation_amended.2.1 _ [vZero, vOne] 5 (by simp), ?_⟩
  have h := train_validation_amended.2.2 (fun _ => 0) [vHalf] ⟨4, 15⟩ ?_
  · exact h
  · intro c hc
    rw [show (PyRange.mk 4 15).elems = List.range' 4 11 from rfl] at hc
    have := (List.mem_range'_1.mp hc).1
    simp only [List.length_cons, List.length_nil]
    omega

/-- Counterexample for C1 as frozen: three songs and the default search
range 4..14 — every candidate is ≥ N = 3, yet find_optimal_k raises
nothing: it returns 4, the start of the range. -/
theorem find_optimal_k_all_large_counterexample :
    (∀ c ∈ (PyRange.mk 4 15).elems, ([vZero, vOne, vHalf] : List Vec).length ≤ c) ∧
    find_optimal_k (fun _ => 0) [vZero, vOne, vHalf] ⟨4, 15⟩ = .ok 4 ∧
    (∀ e : PyError,
      find_optimal_k (fun _ => 0) [vZero, vOne, vHalf] ⟨4, 15⟩ ≠ .error e) := by
  refine ⟨?_, rfl, ?_⟩
  · intro c hc
    rw [show (PyRange.mk 4 15).elems = List.range' 4 11 from rfl] at hc
    have := (List.mem_range'_1.mp hc).1
    simp only [List.length_cons, List.length_nil]
    omega
  · intro e h
    rw [show find_optimal_k (fun _ => 0) [vZero, vOne, vHalf] ⟨4, 15⟩ =
      Except.ok 4 from rfl] at h
    cases h

/-- Invariant of the model-selection scan: on an ascending candidate list
whose entries are all ≥ 2, with a best-so-far score of at least -1, the
scan never raises, and it returns either the carried best_k unchanged
(when no scanned candidate beats the carried score) or the first scanned
candidate below n attaining the maximal score. -/
theorem fokGo_spec (sil : ℕ → ℚ) (n : ℕ) :
    ∀ (ks : List ℕ) (bk : ℕ) (bs : ℚ), (∀ k ∈ ks, 2 ≤ k) →
      ks.Pairwise (· ≤ ·) → (-1 : ℚ) ≤ bs →
      ∃ r, fokGo sil n ks bk bs = .ok r ∧
        ((r = bk ∧ ∀ k ∈ ks, k < n → sil k ≤ bs) ∨
         (r ∈ ks ∧ r < n ∧ bs < sil r ∧ (∀ k ∈ ks, k < n → sil k ≤ sil r) ∧
          (∀ k ∈ ks, k < n → sil k = sil r → r ≤ k)))
  | [], bk, bs, _, _, _ =>
    ⟨bk, rfl, Or.inl ⟨rfl, fun k hk => absurd hk (List.not_mem_nil k)⟩⟩
  | k :: ks, bk, bs, hall, hpair, hbs => by
    have h2k : 2 ≤ k := hall k (List.mem_cons_self k ks)
    rcases List.pairwise_cons.mp hpair with ⟨hle, hpair'⟩
    have hall' : ∀ x ∈ ks, 2 ≤ x := fun x hx => hall x (List.mem_cons_of_mem k hx)
    by_cases hbreak : n ≤ k
    · refine ⟨bk, ?_, Or.inl ⟨rfl, ?_⟩⟩
      · rw [fokGo, if_pos hbreak]
      · intro x hx hxn
        rcases List.mem_cons.mp hx with rfl | hx'
        · omega
        · have := hle x hx'
          omega
    · have hc1 : 1 ≤ k ∧ k ≤ n := ⟨by omega, by omega⟩
      have hc2 : 2 ≤ k ∧ k + 1 ≤ n := ⟨h2k, by omega⟩
      rw [fokGo, if_neg hbreak, if_neg (not_not_intro hc1), if_neg (not_not_intro hc2)]
      by_cases himp : bs < sil k
      · rw [if_pos himp]
        obtain ⟨r, hr, hcase⟩ :=
          fokGo_spec sil n ks k (sil k) hall' hpair' (hbs.trans himp.le)
        refine ⟨r, hr, Or.inr ?_⟩
        rcases hcase with ⟨rfl, hmax⟩ | ⟨hrmem, hrn, hlt, hmax, htie⟩
        · refine ⟨List.mem_cons_self _ _, by omega, himp, ?_, ?_⟩
          · intro x hx hxn
            rcases List.mem_cons.mp hx with rfl | hx'
            · exact le_refl _
            · exact hmax x hx' hxn
          · intro x hx _ _
            rcases List.mem_cons.mp hx with rfl | hx'
            · exact le_refl _
            · exact hle x hx'
        · refine ⟨List.mem_cons_of_mem k hrmem, hrn, himp.trans hlt, ?_, ?_⟩
          · intro x hx hxn
            rcases List.mem_cons.mp hx with rfl | hx'
            · exact hlt.le
            · exact hmax x hx' hxn
          · intro x hx hxn heq
            rcases List.mem_cons.mp hx with rfl | hx'
            · exact absurd heq (ne_of_lt hlt)
            · exact htie x hx' hxn heq
      · rw [if_neg himp]
        obtain ⟨r, hr, hcase⟩ := fokGo_spec sil n ks bk bs hall' hpair' hbs
        refine ⟨r, hr, ?_⟩
        rcases hcase with ⟨hrbk, hmax⟩ | ⟨hrmem, hrn, hlt, hmax, htie⟩
        · refine Or.inl ⟨hrbk, ?_⟩
          intro x hx hxn
          rcases List.mem_cons.mp hx with rfl | hx'
          · exact not_lt.mp himp
          · exact hmax x hx' hxn
        · refine Or.inr ⟨List.mem_cons_of_mem k hrmem, hrn, hlt, ?_, ?_⟩
          · intro x hx hxn
            rcases List.mem_cons.mp hx with rfl | hx'
            · exact (not_lt.mp himp).trans hlt.le
            · exact hmax x hx' hxn
          · intro x hx hxn heq
            rcases List.mem_cons.mp hx with rfl | hx'
            · exact absurd heq (ne_of_lt (lt_of_le_of_lt (not_lt.mp himp) hlt))
            · exact htie x hx' hxn heq

/-- C7 (amended): for every silhouette profile bounded below by -1 (the
true silhouette range), input size N, and candidate range starting at
some k ≥ 2 with at least one candidate below N, find_optimal_k raises
nothing and returns a candidate k < N attaining the highest silhouette
score among candidates below N; ties go to the lowest (first-scanned)
such k.  Candidates ≥ N terminate the ascending scan, so they are
exactly the skipped ones.  (For ranges starting at 0 or 1 the scan
raises ValueError instead — silhouette is undefined there — hence the
start ≥ 2 hypothesis; see the counterexample.) -/
theorem find_optimal_k_spec (sil : ℕ → ℚ) (X : List Vec) (kr : PyRange)
    (h2 : 2 ≤ kr.start) (hne : kr.start < kr.stop) (hn : kr.start < X.length)
    (hsil : ∀ k, (-1 : ℚ) ≤ sil k) :
    ∃ r, find_optimal_k sil X kr = .ok r ∧ r ∈ kr.elems ∧ r < X.length ∧
      (∀ k ∈ kr.elems, k < X.length → sil k ≤ sil r) ∧
      (∀ k ∈ kr.elems, k < X.length → sil k = sil r → r ≤ k) := by
  have hall : ∀ k ∈ kr.elems, 2 ≤ k := by
    intro k hk
    rw [PyRange.elems] at hk
    have := (List.mem_range'_1.mp hk).1
    omega
  have hpair : kr.elems.Pairwise (· ≤ ·) := by
    rw [PyRange.elems]
    exact (List.pairwise_lt_range' _ _ 1 (by norm_num)).imp le_of_lt
  have hmem : kr.start ∈ kr.elems := by
    rw [PyRange.elems]
    exact List.mem_range'_1.mpr ⟨le_refl _, by omega⟩
  obtain ⟨r, hr, hcase⟩ :=
    fokGo_spec sil X.length kr.elems kr.start (-1) hall hpair (le_refl _)
  rcases hcase with ⟨rfl, hmax⟩ | ⟨hrmem, hrn, _, hmax, htie⟩
  · refine ⟨kr.start, hr, hmem, hn, ?_, ?_⟩
    · intro k hk hkn
      exact (hmax k hk hkn).trans (hsil kr.start)
    · intro k hk _ _
      rw [PyRange.elems] at hk
      exact (List.mem_range'_1.mp hk).1
  · exact ⟨r, hr, hrmem, hrn, hmax, htie⟩

/-- Witness for C7 at the constant-zero silhouette profile, ten samples
and the default range 4..14. -/
theorem find_optimal_k_spec_witness :
    2 ≤ (PyRange.mk 4 15).start ∧ (PyRange.mk 4 15).start < (PyRange.mk 4 15).stop ∧
    (PyRange.mk 4 15).start < (List.replicate 10 vHalf).length ∧
    (∀ k : ℕ, (-1 : ℚ) ≤ (fun _ : ℕ => (0 : ℚ)) k) ∧
    (∃ r, find_optimal_k (fun _ => 0) (List.replicate 10 vHalf) ⟨4, 15⟩ = .ok r ∧
      r ∈ (PyRange.mk 4 15).elems ∧ r < (List.replicate 10 vHalf).length ∧
      (∀ k ∈ (PyRange.mk 4 15).elems, k < (List.replicate 10 vHalf).length →
        (fun _ : ℕ => (0 : ℚ)) k ≤ (fun _ : ℕ => (0 : ℚ)) r) ∧
      (∀ k ∈ (PyRange.mk 4 15).elems, k < (List.replicate 10 vHalf).length →
        (fun _ : ℕ => (0 : ℚ)) k = (fun _ : ℕ => (0 : ℚ)) r → r ≤ k)) := by
  have hsil : ∀ k : ℕ, (-1 : ℚ) ≤ (fun _ : ℕ => (0 : ℚ)) k := fun k => by norm_num
  exact ⟨by norm_num, by norm_num, by simp, hsil,
    find_optimal_k_spec (fun _ => 0) (List.replicate 10 vHalf) ⟨4, 15⟩
      (by norm_num) (by norm_num) (by simp) hsil⟩

/-- Counterexample for C7 as frozen: the range 1..2 over five samples has
candidates below N, yet find_optimal_k raises ValueError at k = 1
(silhouette needs at least 2 labels) instead of returning the
highest-scoring candidate. -/
theorem find_optimal_k_small_k_counterexample :
    find_optimal_k (fun _ => 0) (List.replicate 5 vHalf) ⟨1, 3⟩ = .error .valueError ∧
    (1 : ℕ) < (List.replicate 5 vHalf).length :=
  ⟨rfl, by simp⟩

/-- Cluster row as the visualization route reads it (db/models.py): the
surrogate id and the persisted centroid feature vector. -/
structure ClusterRec where
  id : ℤ
  centroid : Vec

/-- reduce_for_visualization (cluster.py lines 107-125): fit a fresh
2-component PCA on the song feature table and return its fit_transform
coordinates.  PCA itself is scikit-learn code, not repository code; it
enters the embedding as the abstract functions fit, transform and
fitTransform — determinism (same input, same basis) is implicit in their
being functions, matching PCA with a fixed random_state. -/
def reduce_for_visualization (fitTransform : List Vec → List (ℚ × ℚ))
    (X : List Vec) : List (ℚ × ℚ) :=
  fitTransform X

/-- reduce_centroids_for_visualization (cluster.py lines 128-161): fit a
fresh PCA — a second fit, not a reuse of the first — on the same song
feature table, then transform the centroid array, keeping each
cluster_id. -/
def reduce_centroids_for_visualization {B : Type} (fit : List Vec → B)
    (transform : B → Vec → ℚ × ℚ) (cents : List Centroid) (X : List Vec) :
    List (ℤ × ℚ × ℚ) :=
  cents.map fun c => (c.cluster_id, transform (fit X) c.vec)

/-- get_clusters_visualization (routes.py lines 130-194): build the song
feature table (songArr per song), project songs with
reduce_for_visualization, build the centroid dictionaries from the
cluster rows, and project them with reduce_centroids_for_visualization
over the same feature table.  The ℕ component instruments the request
with the number of PCA fits performed: one inside
reduce_for_visualization (fit_transform, line 120) plus one inside
reduce_centroids_for_visualization (fit, line 145) whenever centroids
exist. -/
def get_clusters_visualization {B : Type} (fit : List Vec → B)
    (transform : B → Vec → ℚ × ℚ) (fitTransform : List Vec → List (ℚ × ℚ))
    (songs : List Song) (clusters : List ClusterRec) :
    (List (Song × ℚ × ℚ) × List (ℤ × ℚ × ℚ)) × ℕ :=
  if songs.isEmpty then (([], []), 0)
  else
    let X := songs.map songArr
    let coords := reduce_for_visualization fitTransform X
    let cents := clusters.map fun cl => Centroid.mk cl.id cl.centroid
    let centCoords :=
      if cents.isEmpty then []
      else reduce_centroids_for_visualization fit transform cents X
    ((songs.zip coords, centCoords), 1 + if cents.isEmpty then 0 else 1)

/-- Counterexample for C2 as frozen: on a request with one song and one
cluster the route performs two PCA fits (one per reduction call), not the
single fit-and-reuse the claim describes. -/
theorem visualization_fits_twice_counterexample :
    (get_clusters_visualization (fun _ : List Vec => ())
      (fun _ v => (v 0, v 1)) (fun Y => Y.map fun v => (v 0, v 1))
      [sngA] [⟨0, vHalf⟩]).2 = 2 ∧ (2 : ℕ) ≠ 1 :=
  ⟨rfl, by norm_num⟩

/-- C2 (amended): the projection basis is fit twice per visualization
request — the instrumented fit count of the route is 2 — but both fits
run over the same full song-feature table and fitting is a deterministic
function of that table, so the two bases coincide and songs and centroids
lie in one shared coordinate space: under PCA's fit_transform coherence
law (fitTransform X = map (transform (fit X)) X), a centroid equal to the
feature array of song j receives exactly song j's coordinates. -/
theorem visualization_shared_space {B : Type} (fit : List Vec → B)
    (transform : B → Vec → ℚ × ℚ) (fitTransform : List Vec → List (ℚ × ℚ))
    (hcoh : ∀ X, fitTransform X = X.map (transform (fit X)))
    (songs : List Song) (clusters : List ClusterRec) (i j : ℕ)
    (hi : i < clusters.length) (hj : j < songs.length)
    (hvec : clusters[i].centroid = songArr songs[j]) :
    ∃ p : ℚ × ℚ,
      (get_clusters_visualization fit transform fitTransform songs clusters).1.1[j]? =
        some (songs[j], p) ∧
      (get_clusters_visualization fit transform fitTransform songs clusters).1.2[i]? =
        some (clusters[i].id, p) ∧
      (get_clusters_visualization fit transform fitTransform songs clusters).2 = 2 := by
  have hsne : ¬ songs.isEmpty = true := by
    intro h
    rw [List.isEmpty_iff.mp h] at hj
    exact absurd hj (by simp)
  have hcne : ¬ (clusters.map fun cl => Centroid.mk cl.id cl.centroid).isEmpty = true := by
    intro h
    have := List.isEmpty_iff.mp h
    have hlen := congrArg List.length this
    rw [List.length_map] at hlen
    rw [hlen] at hi
    exact absurd hi (by simp)
  refine ⟨transform (fit (songs.map songArr)) (songArr songs[j]), ?_, ?_, ?_⟩
  · simp only [get_clusters_visualization, if_neg hsne]
    have hjc : j < (reduce_for_visualization fitTransform (songs.map songArr)).length := by
      rw [reduce_for_visualization, hcoh, List.length_map, List.length_map]
      exact hj
    have hjz : j < (songs.zip (reduce_for_visualization fitTransform
        (songs.map songArr))).length := by
      rw [List.length_zip]
      exact lt_min hj hjc
    rw [List.getElem?_eq_getElem hjz, List.getElem_zip]
    have hcoord : (reduce_for_visualization fitTransform (songs.map songArr))[j] =
        transform (fit (songs.map songArr)) (songArr songs[j]) := by
      simp only [reduce_for_visualization, hcoh]
      rw [List.getElem_map, List.getElem_map]
    rw [hcoord]
  · simp only [get_clusters_visualization, if_neg hsne, if_neg hcne]
    have hiz : i < (reduce_centroids_for_visualization fit transform
        (clusters.map fun cl => Centroid.mk cl.id cl.centroid)
        (songs.map songArr)).length := by
      simp only [reduce_centroids_for_visualization, List.length_map]
      exact hi
    rw [List.getElem?_eq_getElem hiz]
    simp only [reduce_centroids_for_visualization]
    rw [List.getElem_map, List.getElem_map]
    rw [hvec]
  · simp only [get_clusters_visualization, if_neg hsne, if_neg hcne]

/-- Witness for the amended C2 with a concrete projection satisfying the
fit_transform coherence law, one song and one cluster whose centroid
equals that song's feature array. -/
theorem visualization_shared_space_witness :
    (∀ X : List Vec, (fun Y : List Vec => Y.map fun v => (v 0, v 1)) X =
      X.map ((fun _ : Unit => fun v : Vec => (v 0, v 1)) ((fun _ : List Vec => ()) X))) ∧
    (∃ p : ℚ × ℚ,
      (get_clusters_visualization (fun _ : List Vec => ()) (fun _ v => (v 0, v 1))
        (fun Y => Y.map fun v => (v 0, v 1)) [sngA] [⟨6, songArr sngA⟩]).1.1[0]? =
        some (sngA, p) ∧
      (get_clusters_visualization (fun _ : List Vec => ()) (fun _ v => (v 0, v 1))
        (fun Y => Y.map fun v => (v 0, v 1)) [sngA] [⟨6, songArr sngA⟩]).1.2[0]? =
        some (6, p) ∧
      (get_clusters_visualization (fun _ : List Vec => ()) (fun _ v => (v 0, v 1))
        (fun Y => Y.map fun v => (v 0, v 1)) [sngA] [⟨6, songArr sngA⟩]).2 = 2) := by
  have hcoh : ∀ X : List Vec, (fun Y : List Vec => Y.map fun v => (v 0, v 1)) X =
      X.map ((fun _ : Unit => fun v : Vec => (v 0, v 1)) ((fun _ : List Vec => ()) X)) :=
    fun X => rfl
  have h := visualization_shared_space (fun _ : List Vec => ())
    (fun _ v => (v 0, v 1)) (fun Y => Y.map fun v => (v 0, v 1)) hcoh
    [sngA] [⟨6, songArr sngA⟩] 0 0 (by simp) (by simp) (by simp)
  exact ⟨hcoh, by simpa using h⟩
